import Mathlib

/-!
Verification of the CSV import wizard's duplicate-resolution pipeline.

The definitions below are a shallow embedding of the TypeScript source:
the canonical field set, row/mapping data model, column auto-mapping,
intra-file duplicate grouping and resolution, remote duplicate handling,
merge finalization, root-domain extraction, and the CSV parser.
JavaScript objects used as string-keyed dictionaries are embedded as
association lists with first-key-wins lookup and in-place update,
mirroring JS property-assignment and insertion-order semantics.
-/

/-- The canonical field enumeration of the import schema. -/
inductive FieldKey where
  | appName | appId | developer | category | country
  | companyWebsite | companyLinkedinUrl | sensorTowerId | googlePlayId | developerId
deriving DecidableEq, Repr

/-- The canonical key string of a field, as used at runtime. -/
def FieldKey.name : FieldKey → String
  | .appName => "appName"
  | .appId => "appId"
  | .developer => "developer"
  | .category => "category"
  | .country => "country"
  | .companyWebsite => "companyWebsite"
  | .companyLinkedinUrl => "companyLinkedinUrl"
  | .sensorTowerId => "sensorTowerId"
  | .googlePlayId => "googlePlayId"
  | .developerId => "developerId"

/-- Parse a runtime field-key string back into the enumeration. -/
def parseField (s : String) : Option FieldKey :=
  if s = "appName" then some .appName
  else if s = "appId" then some .appId
  else if s = "developer" then some .developer
  else if s = "category" then some .category
  else if s = "country" then some .country
  else if s = "companyWebsite" then some .companyWebsite
  else if s = "companyLinkedinUrl" then some .companyLinkedinUrl
  else if s = "sensorTowerId" then some .sensorTowerId
  else if s = "googlePlayId" then some .googlePlayId
  else if s = "developerId" then some .developerId
  else none

/-- All canonical fields, in the fixed declaration order used by the source
(the key order of the DuplicateMatchFields object and of the appData literals). -/
def allFields : List FieldKey :=
  [.appName, .appId, .developer, .category, .country,
   .companyWebsite, .companyLinkedinUrl, .sensorTowerId, .googlePlayId, .developerId]

/-- The availableFields list of the component: (value, label) pairs. -/
def availableFields : List (String × String) :=
  [("appName", "App Name"), ("appId", "App ID"), ("developer", "Developer"),
   ("category", "Category"), ("country", "Country"),
   ("companyWebsite", "Company Website"), ("companyLinkedinUrl", "Company LinkedIn URL"),
   ("sensorTowerId", "Sensor Tower ID"), ("googlePlayId", "Google Play ID"),
   ("developerId", "Developer ID")]

/-- An app-field snapshot: the ten canonical string fields of a row or record. -/
structure AppFields where
  appName : String := ""
  appId : String := ""
  developer : String := ""
  category : String := ""
  country : String := ""
  companyWebsite : String := ""
  companyLinkedinUrl : String := ""
  sensorTowerId : String := ""
  googlePlayId : String := ""
  developerId : String := ""
deriving DecidableEq, Repr

/-- Read a canonical field of a snapshot. -/
def AppFields.get (a : AppFields) : FieldKey → String
  | .appName => a.appName
  | .appId => a.appId
  | .developer => a.developer
  | .category => a.category
  | .country => a.country
  | .companyWebsite => a.companyWebsite
  | .companyLinkedinUrl => a.companyLinkedinUrl
  | .sensorTowerId => a.sensorTowerId
  | .googlePlayId => a.googlePlayId
  | .developerId => a.developerId

/-- Overwrite a canonical field of a snapshot. -/
def AppFields.set (a : AppFields) : FieldKey → String → AppFields
  | .appName, v => { a with appName := v }
  | .appId, v => { a with appId := v }
  | .developer, v => { a with developer := v }
  | .category, v => { a with category := v }
  | .country, v => { a with country := v }
  | .companyWebsite, v => { a with companyWebsite := v }
  | .companyLinkedinUrl, v => { a with companyLinkedinUrl := v }
  | .sensorTowerId, v => { a with sensorTowerId := v }
  | .googlePlayId, v => { a with googlePlayId := v }
  | .developerId, v => { a with developerId := v }

/-- Read an app field addressed by its runtime string key; an unknown key
reads as the empty string, matching the falsy undefined of a JS lookup. -/
def AppFields.getS (a : AppFields) (s : String) : String :=
  match parseField s with
  | some f => a.get f
  | none => ""

/-- Write an app field addressed by its runtime string key; an unknown key
is ignored (the model carries only the ten canonical fields). -/
def AppFields.setS (a : AppFields) (s : String) (v : String) : AppFields :=
  match parseField s with
  | some f => a.set f v
  | none => a

/-- A row snapshot tagged with its position in the parsed file
(the _originalIndex written by checkForCsvDuplicates). -/
structure AppData extends AppFields where
  originalIndex : Nat
deriving DecidableEq, Repr

/-- A remote Airtable record: an id plus the canonical field snapshot. -/
structure AppRecord extends AppFields where
  id : String
deriving DecidableEq, Repr

/-- A raw parsed CSV row: a JS object from header name to cell value
(a value of none embeds an undefined property). -/
abbrev RawRow := List (String × Option String)

/-- The column-mapping object: canonical or custom field key to CSV header. -/
abbrev Mappings := List (String × String)

/-- JS property read on an object embedded as an association list. -/
def objGet {α : Type} (m : List (String × α)) (k : String) : Option α :=
  (m.find? (fun p => p.1 = k)).map (fun p => p.2)

/-- JS property assignment on an object embedded as an association list:
overwrite the entry in place when the key exists, append it otherwise. -/
def objUpd {α : Type} : List (String × α) → String → α → List (String × α)
  | [], k, v => [(k, v)]
  | p :: rest, k, v => if p.1 = k then (k, v) :: rest else p :: objUpd rest k v

/-- Read a raw row's cell through an optional property (undefined reads as none). -/
def rowGet (row : RawRow) (h : String) : Option String :=
  (objGet row h).bind id

/-- The value of a mapped canonical field of a raw row:
row[mappings[field]] with a missing mapping or missing cell reading as "". -/
def fieldVal (mappings : Mappings) (row : RawRow) (f : FieldKey) : String :=
  match objGet mappings f.name with
  | none => ""
  | some h => (rowGet row h).getD ""

/-- Build the appData snapshot of a raw row, as the formattedRow / appData
object literals do: each canonical field is row[mappings[field]] or "". -/
def formatRow (mappings : Mappings) (row : RawRow) : AppFields :=
  { appName := fieldVal mappings row .appName
    appId := fieldVal mappings row .appId
    developer := fieldVal mappings row .developer
    category := fieldVal mappings row .category
    country := fieldVal mappings row .country
    companyWebsite := fieldVal mappings row .companyWebsite
    companyLinkedinUrl := fieldVal mappings row .companyLinkedinUrl
    sensorTowerId := fieldVal mappings row .sensorTowerId
    googlePlayId := fieldVal mappings row .googlePlayId
    developerId := fieldVal mappings row .developerId }

/-- The appData snapshot with its _originalIndex, one per row of data. -/
def toAppData (mappings : Mappings) (row : RawRow) (index : Nat) : AppData :=
  { toAppFields := formatRow mappings row, originalIndex := index }

/-- All row snapshots of a data set, indexed by position, as built by the
data.forEach loop of checkForCsvDuplicates. -/
def snapshots (mappings : Mappings) (data : List RawRow) : List AppData :=
  (data.enum).map (fun p => toAppData mappings p.2 p.1)

/-- The zod appSchema check: appName must be non-empty, all else optional. -/
def appSchemaValid (a : AppFields) : Bool :=
  decide (1 ≤ a.appName.length)

/-- A detected intra-file duplicate group: its composite key, its member
snapshots in row order, and the field names it was matched on. -/
structure DupGroup where
  key : String
  records : List AppData
  matchedOn : List String
deriving DecidableEq, Repr

/-- An intra-file duplicate resolution. The action is carried as its runtime
string; mergeFields maps a field name to the 0-based member position. -/
structure Res where
  action : String := ""
  selectedIndex : Nat := 0
  mergeFields : List (String × Nat) := []
deriving DecidableEq, Repr, Inhabited

/-- The composite key of a snapshot over the selected match fields:
"field:value" pairs joined with "|". -/
def compositeKey (selected : List FieldKey) (r : AppFields) : String :=
  String.intercalate "|" (selected.map (fun f => f.name ++ ":" ++ r.get f))

/-- Push a snapshot onto the group of its key (JS duplicateGroups[key].push),
creating the group at the end when the key is new. -/
def addToGroups (groups : List (String × List AppData)) (k : String) (r : AppData) :
    List (String × List AppData) :=
  match groups with
  | [] => [(k, [r])]
  | g :: rest => if g.1 = k then (k, g.2 ++ [r]) :: rest else g :: addToGroups rest k r

/-- The duplicateGroups object of checkForCsvDuplicates: every row snapshot
bucketed under its composite key, in first-seen key order. -/
def duplicateGroups (selected : List FieldKey) (mappings : Mappings) (data : List RawRow) :
    List (String × List AppData) :=
  (snapshots mappings data).foldl
    (fun acc r => addToGroups acc (compositeKey selected r.toAppFields) r) []

/-- checkForCsvDuplicates: with no match fields selected the check reports no
duplicates; otherwise it emits the groups holding more than one record. -/
def checkForCsvDuplicates (selected : List FieldKey) (mappings : Mappings)
    (data : List RawRow) : List DupGroup :=
  if selected = [] then []
  else
    ((duplicateGroups selected mappings data).filter (fun g => 1 < g.2.length)).map
      (fun g => { key := g.1, records := g.2, matchedOn := selected.map FieldKey.name })

/-- The original index of a group's first record (records[0]._originalIndex). -/
def DupGroup.firstIdx (g : DupGroup) : Nat :=
  ((g.records.head?).map (fun r => r.originalIndex)).getD 0

/-- The original index of a group's last record. -/
def DupGroup.lastIdx (g : DupGroup) : Nat :=
  ((g.records.getLast?).map (fun r => r.originalIndex)).getD 0

/-- The initialResolutions built after CSV duplicate detection: every group
gets the bulk action; keepFirst selects the first member's index, keepLast the
last member's, and any other action falls back to the first member's. -/
def initRes (bulk : String) (groups : List DupGroup) : List (String × Res) :=
  groups.foldl
    (fun acc g =>
      let selectedIndex :=
        if bulk = "keepFirst" then g.firstIdx
        else if bulk = "keepLast" then g.lastIdx
        else g.firstIdx
      objUpd acc g.key { action := bulk, selectedIndex := selectedIndex }) []

/-- The JS "a || b" fallback on a number: 0 and undefined are falsy. -/
def jsOrNat (o : Option Nat) (d : Nat) : Nat :=
  match o with
  | some n => if n = 0 then d else n
  | none => d

/-- The bulk-action select handler: for any action other than merge, every
group's resolution is replaced; choosing merge leaves resolutions untouched. -/
def applyBulkAction (value : String) (csvDuplicates : List DupGroup)
    (res : List (String × Res)) : List (String × Res) :=
  if value = "merge" then res
  else
    csvDuplicates.foldl
      (fun acc g =>
        objUpd acc g.key
          { action := value
            selectedIndex :=
              if value = "keepFirst" then g.firstIdx
              else if value = "keepLast" then g.lastIdx
              else g.firstIdx }) res

/-- The per-group action select handler: sets the action, computing the
selected index for keepFirst/keepLast and otherwise keeping the previous
selection (a falsy 0 falls back to the first member's index). -/
def setGroupAction (res : List (String × Res)) (g : DupGroup) (value : String) :
    List (String × Res) :=
  objUpd res g.key
    { action := value
      selectedIndex :=
        if value = "keepFirst" then g.firstIdx
        else if value = "keepLast" then g.lastIdx
        else jsOrNat ((objGet res g.key).map (fun r => r.selectedIndex)) g.firstIdx }

/-- The per-record survivor radio handler: keeps the previous resolution and
overwrites only selectedIndex. -/
def selectSurvivor (res : List (String × Res)) (key : String) (selectedIndex : Nat) :
    List (String × Res) :=
  let prev := (objGet res key).getD default
  objUpd res key { prev with selectedIndex := selectedIndex }

/-- handleCsvDuplicateResolution: overwrites the action with the string "keep"
and records the selected index, keeping the previous mergeFields. -/
def handleCsvDuplicateResolution (res : List (String × Res)) (key : String)
    (selectedIndex : Nat) : List (String × Res) :=
  let prev := (objGet res key).getD default
  objUpd res key
    { action := "keep", selectedIndex := selectedIndex, mergeFields := prev.mergeFields }

/-- The merge checkbox handler: records that a field's merged value comes from
the member at the given 0-based position within the group. -/
def setMergeField (res : List (String × Res)) (key field : String) (recordIndex : Nat) :
    List (String × Res) :=
  let prev := (objGet res key).getD default
  objUpd res key { prev with mergeFields := objUpd prev.mergeFields field recordIndex }

/-- The declared DuplicateAction union of the source. -/
def duplicateActionStrings : List String := ["keepFirst", "keepLast", "merge", "skip"]

/-- The survivor filter of checkForDuplicates: a row survives when it belongs
to no duplicate group, its group has no resolution, its group's action is
merge and it is the first member, or it is the resolution's selected index. -/
def keepRow (csvDuplicates : List DupGroup) (res : List (String × Res)) (index : Nat) : Bool :=
  match csvDuplicates.find? (fun g => g.records.any (fun r => r.originalIndex == index)) with
  | none => true
  | some g =>
    match objGet res g.key with
    | none => true
    | some r =>
      if r.action = "merge" then
        decide (((g.records.head?).map (fun x => x.originalIndex)) = some index)
      else r.selectedIndex == index

/-- The deduplicatedData filter: the rows of data whose position survives
CSV duplicate resolution. -/
def deduplicatedData (data : List RawRow) (csvDuplicates : List DupGroup)
    (res : List (String × Res)) : List RawRow :=
  ((data.enum).filter (fun p => keepRow csvDuplicates res p.1)).map (fun p => p.2)

/-- The "Records to be kept" count of the CSV-duplicates summary panel:
each skip group contributes nothing, every other group contributes one. -/
def recordsToBeKept (csvDuplicates : List DupGroup) (res : List (String × Res)) : Nat :=
  csvDuplicates.foldl
    (fun count g =>
      match objGet res g.key with
      | some r => if r.action = "skip" then count else count + 1
      | none => count + 1) 0

/-- The "Records to be skipped" count of the summary panel: a skip group
contributes all of its members, every other group all but one. -/
def recordsToBeSkipped (csvDuplicates : List DupGroup) (res : List (String × Res)) : Nat :=
  csvDuplicates.foldl
    (fun count g =>
      match objGet res g.key with
      | some r =>
        if r.action = "skip" then count + g.records.length
        else count + g.records.length - 1
      | none => count + g.records.length - 1) 0

/-- Modelled from the spec: the synthesized merged composite of a duplicate
group, "base = first member, fields overridden per mergeField map" - the value
the specification says a merge resolution makes survive. The source never
builds this record in the data path, so it is written from the spec's words
for comparison against what the code forwards. -/
def specMergedComposite (g : DupGroup) (r : Res) : AppFields :=
  let base := ((g.records.head?).map (fun x => x.toAppFields)).getD {}
  r.mergeFields.foldl
    (fun acc p =>
      match g.records.get? p.2 with
      | some m => acc.setS p.1 (m.toAppFields.getS p.1)
      | none => acc) base

/-- The remote resolution action union: keep, replace or merge. -/
inductive RAction where
  | keep | replace | merge
deriving DecidableEq, Repr

/-- A per-field merge resolution: existing, imported or merged. -/
inductive FieldResolution where
  | existing | imported | merged
deriving DecidableEq, Repr

/-- A remote duplicate resolution: an action plus per-field resolutions
keyed by field name. -/
structure RemoteResolution where
  action : RAction
  fieldResolutions : List (String × FieldResolution)
deriving DecidableEq, Repr

/-- One remote duplicate discovery: the surviving row's snapshot paired with
the remote records it matched, and the fields that produced the match. -/
structure DupEntry where
  importData : AppFields
  duplicates : List AppRecord
  matchedOn : List String
deriving DecidableEq, Repr

/-- The matchedFields computation of checkForDuplicates: a field name is
recorded when some returned record agrees with the snapshot on it. -/
def matchedFieldsOf (appData : AppFields) (potentialDuplicates : List AppRecord) :
    List String :=
  (if potentialDuplicates.any (fun dup => dup.appName == appData.appName)
    then ["appName"] else []) ++
  (if potentialDuplicates.any (fun dup => dup.appId == appData.appId)
    then ["appId"] else []) ++
  (if potentialDuplicates.any (fun dup => dup.googlePlayId == appData.googlePlayId)
    then ["googlePlayId"] else []) ++
  (if potentialDuplicates.any (fun dup => dup.sensorTowerId == appData.sensorTowerId)
    then ["sensorTowerId"] else [])

/-- The per-row loop of checkForDuplicates over the deduplicated rows, with
findAppDuplicates abstracted as a fallible lookup: a lookup error for a row is
swallowed (the row contributes nothing), an empty result adds nothing, and a
non-empty result appends one duplicate entry. -/
def processDedupRows (lookup : AppFields → Except String (List AppRecord))
    (rows : List AppFields) : List DupEntry :=
  rows.foldl
    (fun acc appData =>
      match lookup appData with
      | .error _ => acc
      | .ok potentialDuplicates =>
        if 0 < potentialDuplicates.length then
          acc ++ [{ importData := appData, duplicates := potentialDuplicates,
                    matchedOn := matchedFieldsOf appData potentialDuplicates }]
        else acc)
    []

/-- The initial remote resolutions: every matched record id gets action keep
with all ten fields resolved to existing. -/
def initRemoteResolutions (duplicatesFound : List DupEntry) :
    List (String × RemoteResolution) :=
  duplicatesFound.foldl
    (fun acc dup =>
      dup.duplicates.foldl
        (fun acc2 duplicate =>
          objUpd acc2 duplicate.id
            { action := .keep
              fieldResolutions := allFields.map (fun f => (f.name, .existing)) })
        acc)
    []

/-- calculateFinalData: null inputs produce null; keep returns the existing
data, replace the imported data; merge starts from the existing data and, for
every field resolved to imported whose imported value is truthy, overwrites
that field with the imported value. -/
def calculateFinalData (existingData importedData : Option AppFields)
    (resolution : RemoteResolution) : Option AppFields :=
  match existingData, importedData with
  | some ex, some im =>
    match resolution.action with
    | .keep => some ex
    | .replace => some im
    | .merge =>
      some (resolution.fieldResolutions.foldl
        (fun result p =>
          if p.2 = .imported ∧ im.getS p.1 ≠ "" then result.setS p.1 (im.getS p.1)
          else result)
        ex)
  | _, _ => none

/-- The record-level test of the finalization step deciding whether a
formatted record was found in Airtable: it matches a duplicate entry when the
entry's import snapshot agrees on appName, or on a non-empty appId,
googlePlayId or sensorTowerId of the record. -/
def matchesImport (importData : AppFields) (record : AppFields) : Bool :=
  importData.appName == record.appName ||
  (record.appId != "" && importData.appId == record.appId) ||
  (record.googlePlayId != "" && importData.googlePlayId == record.googlePlayId) ||
  (record.sensorTowerId != "" && importData.sensorTowerId == record.sensorTowerId)

/-- The summary counts assembled into the webhook payload. -/
structure ImportSummary where
  totalProcessed : Nat
  newCount : Nat
  updatedCount : Nat
  unchangedCount : Nat
deriving DecidableEq, Repr

/-- The finalization summary of handleImport: totalProcessed counts the
formatted survivor records; newApps the records matching no duplicate entry;
updatedApps the resolution entries with action replace or merge; and
unchangedApps the resolution entries with action keep. -/
def buildSummary (formattedRecords : List AppFields) (duplicates : List DupEntry)
    (resolutions : List (String × RemoteResolution)) : ImportSummary :=
  let newApps := formattedRecords.filter
    (fun record => !(duplicates.any (fun d => matchesImport d.importData record)))
  let unchangedIds := (resolutions.filter (fun p => p.2.action == RAction.keep)).map (fun p => p.1)
  let updatedIds := (resolutions.filter
    (fun p => p.2.action == RAction.replace || p.2.action == RAction.merge)).map (fun p => p.1)
  { totalProcessed := formattedRecords.length
    newCount := newApps.length
    updatedCount := updatedIds.length
    unchangedCount := unchangedIds.length }

/-- Lowercase every character of a string (JS toLowerCase, ASCII scope). -/
def lowerStr (s : String) : String :=
  String.mk (s.data.map Char.toLower)

/-- Character-list test that the first list starts the second. -/
def isPrefixOfChars : List Char → List Char → Bool
  | [], _ => true
  | _ :: _, [] => false
  | a :: as, b :: bs => a = b && isPrefixOfChars as bs

/-- String startsWith, computed structurally on the character lists. -/
def startsWithStr (s pre : String) : Bool :=
  isPrefixOfChars pre.data s.data

/-- Drop the first n characters of a string. -/
def dropStr (s : String) (n : Nat) : String :=
  String.mk (s.data.drop n)

/-- Take the longest prefix of characters satisfying p. -/
def takeWhileStr (s : String) (p : Char → Bool) : String :=
  String.mk (s.data.takeWhile p)

/-- JS String.prototype.trim: strip leading and trailing whitespace. -/
def jsTrim (s : String) : String :=
  String.mk (((s.data.dropWhile Char.isWhitespace).reverse.dropWhile Char.isWhitespace).reverse)

/-- JS String.prototype.split on a single-character separator, over the
character list: the separator splits at every occurrence and a trailing
separator yields a trailing empty component. -/
def splitChar (sep : Char) : List Char → List (List Char)
  | [] => [[]]
  | c :: rest =>
    match splitChar sep rest with
    | [] => [[]]
    | cur :: done => if c = sep then [] :: cur :: done else (c :: cur) :: done

/-- JS split on a single-character separator, producing strings. -/
def jsSplit (sep : Char) (s : String) : List String :=
  (splitChar sep s.data).map (fun l => String.mk l)

/-- The mapping slot a header lands in at parse time: the value of the first
available field whose label equals the header case-insensitively, or the
synthesized custom-field key otherwise. -/
def slotKey (header : String) : String :=
  match availableFields.find? (fun f => lowerStr f.2 == lowerStr header) with
  | some f => f.1
  | none => "custom_" ++ header

/-- The automatic column mapping of parseCSV: every header is assigned, in
order, to its slot key. -/
def initialMappings (headers : List String) : Mappings :=
  headers.foldl (fun m h => objUpd m (slotKey h) h) []

/-- handleMappingChange: first remove every entry holding this header, then
assign the chosen slot to it. -/
def handleMappingChange (m : Mappings) (header value : String) : Mappings :=
  objUpd (m.filter (fun p => p.2 != header)) value header

/-- A sequence of explicit user re-mappings applied in order. -/
def applyOps (m : Mappings) (ops : List (String × String)) : Mappings :=
  ops.foldl (fun acc p => handleMappingChange acc p.1 p.2) m

/-- How many mapping entries hold the given header. -/
def headerCount (m : Mappings) (h : String) : Nat :=
  (m.filter (fun p => p.2 == h)).length

/-- The scheme test of extractRootDomain: the case-insensitive regex match
for a leading http:// or https://. -/
def hasScheme (s : String) : Bool :=
  startsWithStr (lowerStr s) "http://" || startsWithStr (lowerStr s) "https://"

/-- A model of the hostname produced by the browser URL constructor on an
http(s) URL: the authority runs to the first slash, question mark or hash;
anything up to a final at sign is userinfo, anything from a colon on is the
port; an empty hostname makes the constructor throw (none). IPv6 host
brackets and non-ASCII host normalization are outside the model's scope. -/
def urlHostname (url : String) : Option String :=
  if hasScheme url then
    let rest := dropStr url (if startsWithStr (lowerStr url) "https://" then 8 else 7)
    let authority := takeWhileStr rest (fun c => c != '/' && c != '?' && c != '#')
    let host := (splitChar '@' authority.data).getLastD []
    let hostname := host.takeWhile (fun c => c != ':')
    if hostname = [] then none else some (lowerStr (String.mk hostname))
  else none

/-- One attempt of the fallback regex at a fixed start position: optionally
consume a scheme, then optionally "www.", preferring consumption, and capture
a non-empty run of non-slash characters; backtrack on failure. -/
def regexTryAt (s : String) : Option String :=
  let sl := lowerStr s
  let schemeLen :=
    if startsWithStr sl "https://" then 8
    else if startsWithStr sl "http://" then 7 else 0
  let candidates :=
    (if 0 < schemeLen then
      (if startsWithStr (lowerStr (dropStr s schemeLen)) "www." then
        [schemeLen + 4, schemeLen] else [schemeLen])
     else if startsWithStr sl "www." then [4] else []) ++ [0]
  candidates.findSome? (fun p =>
    let cap := (s.data.drop p).takeWhile (fun c => c != '/')
    if cap = [] then none else some (String.mk cap))

/-- The fallback hostname guess of extractRootDomain, a model of the first
match of the case-insensitive pattern (?:https?://)?(?:www[.])?([^/]+):
start positions are scanned left to right, first successful capture wins. -/
def regexFallback (url : String) : Option String :=
  (List.range (url.data.length + 1)).findSome? (fun i => regexTryAt (dropStr url i))

/-- Strip one leading "www." case-insensitively, modelling the first-match
replacement of the anchored www pattern with the empty string. -/
def stripWww (s : String) : String :=
  if startsWithStr (lowerStr s) "www." then dropStr s 4 else s

/-- extractRootDomain: empty input yields empty output; otherwise https:// is
prefixed when no scheme is present, the URL hostname is lowercased and
stripped of a leading www.; if URL parsing throws, the regex guess is
lowercased; if that fails too, the (possibly prefixed) string is returned. -/
def extractRootDomain (url : String) : String :=
  if url = "" then ""
  else
    let url2 := if hasScheme url then url else "https://" ++ url
    match urlHostname url2 with
    | some hostname => stripWww (lowerStr hostname)
    | none =>
      match regexFallback url2 with
      | some captured => lowerStr captured
      | none => url2

/-- The line split of parseCSV: content split on the newline character. -/
def parseCSVLines (content : String) : List String :=
  jsSplit '\n' content

/-- The header row of parseCSV: the first line split on commas and trimmed. -/
def parseHeaders (content : String) : List String :=
  (jsSplit ',' ((parseCSVLines content).headD "")).map (fun h => jsTrim h)

/-- One parsed data row: the line is split on commas and each header is
assigned the trimmed value at its position (an absent cell stays undefined). -/
def rowOfLine (headers : List String) (line : String) : RawRow :=
  (headers.enum).foldl
    (fun obj hi => objUpd obj hi.2 (((jsSplit ',' line).get? hi.1).map (fun v => jsTrim v)))
    []

/-- The parsedData of parseCSV: every line after the header row becomes a row
object keyed by header name. -/
def parseCSVData (content : String) : List RawRow :=
  ((parseCSVLines content).tail).map (fun line => rowOfLine (parseHeaders content) line)

/-! Shared lemmas about the embedded JS object operations and lists. -/

/-- A mapping with App Name and a Dev column mapped to the developer field. -/
def mapA : Mappings := [("appName", "App Name"), ("developer", "Dev")]

/-- First sample row: appName A, custom Dev column devA. -/
def rowA0 : RawRow := [("App Name", some "A"), ("Dev", some "devA")]

/-- Second sample row: same appName A, Dev column devB. -/
def rowA1 : RawRow := [("App Name", some "A"), ("Dev", some "devB")]

/-- The duplicate groups of the two sample rows matched on appName:
one group of two records. -/
def groupsA : List DupGroup :=
  checkForCsvDuplicates [.appName] mapA [rowA0, rowA1]

/-- A merge resolution on the sample group designating the second member's
value for the developer field. -/
def resMergeA : List (String × Res) :=
  setMergeField (initRes "merge" groupsA) "appName:A" "developer" 1

/-- A mapping for the composite-key collision scenario. -/
def mapB : Mappings := [("appName", "H1"), ("appId", "H2")]

/-- Collision row: appName contains the pipe separator and a field marker. -/
def rowB0 : RawRow := [("H1", some "a|appId:b"), ("H2", some "")]

/-- Collision row: different appName, appId aligned so the keys agree. -/
def rowB1 : RawRow := [("H1", some "a"), ("H2", some "b|appId:")]

/-- A survivor snapshot matching two remote records. -/
def impC : AppFields := { appName := "A" }

/-- The first matching remote record. -/
def recC1 : AppRecord := { appName := "A", id := "id1" }

/-- The second matching remote record. -/
def recC2 : AppRecord := { appName := "A", id := "id2" }

/-- The duplicate entries produced by the per-row loop for the one survivor
when the lookup returns both remote records. -/
def dupsC : List DupEntry :=
  processDedupRows (fun _ => .ok [recC1, recC2]) [impC]

/-- Whether a fallible lookup succeeded. -/
def lookupOk {ε α : Type} : Except ε α → Bool
  | .ok _ => true
  | .error _ => false

/-- Two surviving snapshots for the lookup-failure scenario. -/
def rowsW : List AppFields := [{ appName := "boom" }, { appName := "ok" }]

/-- A lookup that fails on the first snapshot and matches on the second. -/
def lookupW : AppFields → Except String (List AppRecord) := fun a =>
  if a.appName = "boom" then .error "E" else .ok [recC1]

/-- The duplicate entry the scenario produces for the second snapshot. -/
def entryW : DupEntry :=
  { importData := { appName := "ok" }, duplicates := [recC1],
    matchedOn := ["appId", "googlePlayId", "sensorTowerId"] }

/-- A concrete merge resolution: appName from the import, developer existing. -/
def resW : RemoteResolution :=
  { action := .merge,
    fieldResolutions := [("appName", .imported), ("developer", .existing)] }

/-- The existing remote snapshot of the witness scenario. -/
def exW : AppFields := { appName := "old", developer := "devOld" }

/-- The imported snapshot of the witness scenario (empty developer). -/
def imW : AppFields := { appName := "new" }

/-- A concrete CSV text ending in a newline: header line plus one data line. -/
def contentW : String := "App Name,Dev\nfoo,bar\n"

/-- The parse-time invariant: keys are distinct and every entry sits at the
slot key computed from its header. -/
def MappingWF (m : Mappings) : Prop :=
  (m.map (fun p => p.1)).Nodup ∧ ∀ p ∈ m, p.1 = slotKey p.2

/-- The bucket held under a key in the grouping object (empty when absent). -/
def findRecs (groups : List (String × List AppData)) (k : String) : List AppData :=
  match groups.find? (fun g => g.1 = k) with
  | some g => g.2
  | none => []

theorem AppFields.get_set (a : AppFields) (f g : FieldKey) (v : String) :
    (a.set f v).get g = if g = f then v else a.get g := by
  cases f <;> cases g <;> simp [AppFields.get, AppFields.set]

theorem mem_objUpd {α : Type} {m : List (String × α)} {k : String} {v : α}
    {p : String × α} (hp : p ∈ objUpd m k v) : p ∈ m ∨ p = (k, v) := by
  induction m with
  | nil => simpa [objUpd] using hp
  | cons q rest ih =>
    by_cases hq : q.1 = k
    · simp only [objUpd, if_pos hq] at hp
      rcases List.mem_cons.mp hp with h | h
      · right; exact h
      · left; exact List.mem_cons_of_mem _ h
    · simp only [objUpd, if_neg hq] at hp
      rcases List.mem_cons.mp hp with h | h
      · left; exact h ▸ List.mem_cons_self _ _
      · rcases ih h with h2 | h2
        · left; exact List.mem_cons_of_mem _ h2
        · right; exact h2

theorem objUpd_self_mem {α : Type} (m : List (String × α)) (k : String) (v : α) :
    (k, v) ∈ objUpd m k v := by
  induction m with
  | nil => simp [objUpd]
  | cons q rest ih =>
    by_cases hq : q.1 = k
    · simp [objUpd, if_pos hq]
    · simp only [objUpd, if_neg hq]
      exact List.mem_cons_of_mem _ ih

theorem mem_objUpd_of_mem {α : Type} {m : List (String × α)} {p : String × α}
    (hp : p ∈ m) (k : String) (v : α) (hk : p.1 ≠ k) : p ∈ objUpd m k v := by
  induction m with
  | nil => cases hp
  | cons q rest ih =>
    by_cases hq : q.1 = k
    · simp only [objUpd, if_pos hq]
      rcases List.mem_cons.mp hp with h | h
      · exact absurd (h ▸ hq) hk
      · exact List.mem_cons_of_mem _ h
    · simp only [objUpd, if_neg hq]
      rcases List.mem_cons.mp hp with h | h
      · exact h ▸ List.mem_cons_self _ _
      · exact List.mem_cons_of_mem _ (ih h)

theorem two_mem_one_lt_length {α : Type} {l : List α} {a b : α}
    (ha : a ∈ l) (hb : b ∈ l) (hab : a ≠ b) : 1 < l.length := by
  cases l with
  | nil => cases ha
  | cons x t =>
    rcases List.mem_cons.mp ha with h1 | h1
    · rcases List.mem_cons.mp hb with h2 | h2
      · exact absurd (h1.trans h2.symm) hab
      · have := List.length_pos.mpr (List.ne_nil_of_mem h2)
        simp only [List.length_cons]
        omega
    · have := List.length_pos.mpr (List.ne_nil_of_mem h1)
      simp only [List.length_cons]
      omega

theorem filter_length_partition {α : Type} (l : List α) (p : α → Bool) :
    (l.filter p).length + (l.filter (fun a => !(p a))).length = l.length := by
  induction l with
  | nil => simp
  | cons x t ih =>
    by_cases hx : p x
    · simp [List.filter_cons, hx, ih]
      omega
    · simp only [List.filter_cons]
      simp [hx]
      omega

/-! Concrete scenarios used to evaluate the pipeline at specific inputs. -/

/-- C1. The claim says a skip resolution yields zero survivors from the
group. On a two-row duplicate group resolved with the bulk skip action, the
deduplication filter keeps the first member (the resolution's selectedIndex),
while the code's own summary panel reports zero records kept for the same
state: one survivor is produced, not zero. -/
theorem skip_keeps_first_member_not_zero :
    groupsA.length = 1
    ∧ (initRes "skip" groupsA).all (fun p => p.2.action == "skip")
    ∧ deduplicatedData [rowA0, rowA1] groupsA (initRes "skip" groupsA) = [rowA0]
    ∧ recordsToBeKept groupsA (initRes "skip" groupsA) = 0
    ∧ recordsToBeSkipped groupsA (initRes "skip" groupsA) = 2 := by
  decide

/-- C4. The claim says the merge survivor is the synthesized composite. With
a merge resolution whose mergeFields designate member 1 for a field, the
filter forwards the first member's raw row unchanged: its snapshot differs
from the composite the specification describes on that very field. -/
theorem merge_survivor_is_first_member_unchanged :
    deduplicatedData [rowA0, rowA1] groupsA resMergeA = [rowA0]
    ∧ (formatRow mapA rowA0).developer = "devA"
    ∧ (specMergedComposite (groupsA.headD ⟨"", [], []⟩)
        ((objGet resMergeA "appName:A").getD default)).developer = "devB"
    ∧ formatRow mapA rowA0 ≠
        specMergedComposite (groupsA.headD ⟨"", [], []⟩)
          ((objGet resMergeA "appName:A").getD default) := by
  decide

/-- C9. The claim says every resolution action stays in the declared set.
The per-record survivor-selection handler handleCsvDuplicateResolution
overwrites the action with the string "keep", which the declared
DuplicateAction union does not contain. -/
theorem handle_resolution_sets_action_outside_declared_set :
    ((objGet (handleCsvDuplicateResolution (initRes "keepFirst" groupsA) "appName:A" 1)
        "appName:A").map (fun r => r.action)) = some "keep"
    ∧ "keep" ∉ duplicateActionStrings := by
  decide

/-- C2 counterexample. The claim says two rows share a group iff their
selected-field values are all equal. These two rows have different appName
values, yet their composite keys collide (the pipe separator occurs in a
value), so they land in the same emitted duplicate group. -/
theorem grouping_not_iff_fieldwise_equality :
    (∃ g ∈ checkForCsvDuplicates [.appName, .appId] mapB [rowB0, rowB1],
      toAppData mapB rowB0 0 ∈ g.records ∧ toAppData mapB rowB1 1 ∈ g.records)
    ∧ (formatRow mapB rowB0).appName ≠ (formatRow mapB rowB1).appName := by
  decide

/-- C3 counterexample. One survivor matched two remote records; both get the
default keep resolution. The summary then reports totalProcessed 1 but
unchanged 2, so new + updated + unchanged differs from totalProcessed. -/
theorem summary_counts_do_not_add_up :
    (buildSummary [impC] dupsC (initRemoteResolutions dupsC)).newCount +
      (buildSummary [impC] dupsC (initRemoteResolutions dupsC)).updatedCount +
      (buildSummary [impC] dupsC (initRemoteResolutions dupsC)).unchangedCount ≠
    (buildSummary [impC] dupsC (initRemoteResolutions dupsC)).totalProcessed := by
  decide

/-- C3 amended. The new bucket partitions the survivors against the
record-level match test (new + matched = totalProcessed), and updated and
unchanged together count exactly the remote resolution entries, which are
keyed by record id rather than by survivor. -/
theorem summary_partition_amended (formattedRecords : List AppFields)
    (duplicates : List DupEntry) (resolutions : List (String × RemoteResolution)) :
    (buildSummary formattedRecords duplicates resolutions).newCount +
      (formattedRecords.filter
        (fun record => duplicates.any (fun d => matchesImport d.importData record))).length =
      (buildSummary formattedRecords duplicates resolutions).totalProcessed
    ∧ (buildSummary formattedRecords duplicates resolutions).updatedCount +
        (buildSummary formattedRecords duplicates resolutions).unchangedCount =
      resolutions.length := by
  constructor
  · have h := filter_length_partition formattedRecords
      (fun record => duplicates.any (fun d => matchesImport d.importData record))
    simp only [buildSummary]
    omega
  · have h := filter_length_partition resolutions (fun p => p.2.action == RAction.keep)
    have hcongr : resolutions.filter
        (fun p => p.2.action == RAction.replace || p.2.action == RAction.merge) =
        resolutions.filter (fun p => !(p.2.action == RAction.keep)) := by
      apply List.filter_congr
      intro p _
      cases p.2.action <;> rfl
    simp only [buildSummary, List.length_map, hcongr]
    omega

theorem processDedupRows_go_filter (lookup : AppFields → Except String (List AppRecord))
    (rows : List AppFields) (acc : List DupEntry) :
    rows.foldl
      (fun acc appData =>
        match lookup appData with
        | .error _ => acc
        | .ok potentialDuplicates =>
          if 0 < potentialDuplicates.length then
            acc ++ [{ importData := appData, duplicates := potentialDuplicates,
                      matchedOn := matchedFieldsOf appData potentialDuplicates }]
          else acc) acc =
    (rows.filter (fun r => lookupOk (lookup r))).foldl
      (fun acc appData =>
        match lookup appData with
        | .error _ => acc
        | .ok potentialDuplicates =>
          if 0 < potentialDuplicates.length then
            acc ++ [{ importData := appData, duplicates := potentialDuplicates,
                      matchedOn := matchedFieldsOf appData potentialDuplicates }]
          else acc) acc := by
  induction rows generalizing acc with
  | nil => rfl
  | cons r t ih =>
    cases hr : lookup r with
    | error e =>
      simp only [List.foldl_cons, List.filter_cons, hr, lookupOk]
      exact ih acc
    | ok dups =>
      simp only [List.foldl_cons, List.filter_cons, hr, lookupOk, if_true, List.foldl_cons]
      exact ih _

theorem processDedupRows_go_mem (lookup : AppFields → Except String (List AppRecord))
    (rows : List AppFields) (acc : List DupEntry) (e : DupEntry)
    (he : e ∈ rows.foldl
      (fun acc appData =>
        match lookup appData with
        | .error _ => acc
        | .ok potentialDuplicates =>
          if 0 < potentialDuplicates.length then
            acc ++ [{ importData := appData, duplicates := potentialDuplicates,
                      matchedOn := matchedFieldsOf appData potentialDuplicates }]
          else acc) acc) :
    e ∈ acc ∨ ∃ r ∈ rows, ∃ dups, lookup r = .ok dups ∧ 0 < dups.length ∧
      e = { importData := r, duplicates := dups, matchedOn := matchedFieldsOf r dups } := by
  induction rows generalizing acc with
  | nil => exact Or.inl he
  | cons r t ih =>
    simp only [List.foldl_cons] at he
    cases hr : lookup r with
    | error err =>
      simp only [hr] at he
      rcases ih _ he with h | h
      · exact Or.inl h
      · rcases h with ⟨r2, hr2, rest⟩
        exact Or.inr ⟨r2, List.mem_cons_of_mem _ hr2, rest⟩
    | ok dups =>
      simp only [hr] at he
      by_cases hd : 0 < dups.length
      · rw [if_pos hd] at he
        rcases ih _ he with h | h
        · rcases List.mem_append.mp h with h2 | h2
          · exact Or.inl h2
          · exact Or.inr ⟨r, List.mem_cons_self _ _, dups, hr, hd, by simpa using h2⟩
        · rcases h with ⟨r2, hr2, rest⟩
          exact Or.inr ⟨r2, List.mem_cons_of_mem _ hr2, rest⟩
      · rw [if_neg hd] at he
        rcases ih _ he with h | h
        · exact Or.inl h
        · rcases h with ⟨r2, hr2, rest⟩
          exact Or.inr ⟨r2, List.mem_cons_of_mem _ hr2, rest⟩

/-- C8. A failed remote lookup for one row is isolated: the duplicate check
behaves exactly as if the failing rows were absent, and every duplicate entry
produced comes from a row whose lookup succeeded with a non-empty result, so
a single-row error never aborts the batch and never marks another row. -/
theorem lookup_failure_isolated (lookup : AppFields → Except String (List AppRecord))
    (rows : List AppFields) :
    processDedupRows lookup rows =
      processDedupRows lookup (rows.filter (fun r => lookupOk (lookup r)))
    ∧ ∀ e ∈ processDedupRows lookup rows,
        ∃ r ∈ rows, ∃ dups, lookup r = .ok dups ∧ 0 < dups.length ∧
          e = { importData := r, duplicates := dups, matchedOn := matchedFieldsOf r dups } := by
  constructor
  · exact processDedupRows_go_filter lookup rows []
  · intro e he
    rcases processDedupRows_go_mem lookup rows [] e he with h | h
    · cases h
    · exact h

theorem lookup_failure_isolated_witness :
    ∃ r ∈ rowsW, ∃ dups, lookupW r = .ok dups ∧ 0 < dups.length ∧
      entryW = { importData := r, duplicates := dups, matchedOn := matchedFieldsOf r dups } :=
  (lookup_failure_isolated lookupW rowsW).2 entryW (by decide)

theorem parseField_name (f : FieldKey) : parseField f.name = some f := by
  cases f <;> rfl

theorem parseField_some {s : String} {f : FieldKey} (h : parseField s = some f) :
    s = f.name := by
  unfold parseField at h
  split_ifs at h <;> cases h <;> simp_all [FieldKey.name]

theorem FieldKey.name_inj {f g : FieldKey} (h : f.name = g.name) : f = g := by
  have h1 := parseField_name f
  rw [h, parseField_name] at h1
  exact (Option.some.inj h1).symm

theorem AppFields.get_setS (a : AppFields) (s v : String) (f : FieldKey) :
    (a.setS s v).get f = if s = f.name then v else a.get f := by
  unfold AppFields.setS
  cases hp : parseField s with
  | none =>
    have hne : s ≠ f.name := by
      intro h
      rw [h, parseField_name] at hp
      cases hp
    rw [if_neg hne]
  | some g =>
    have hs : s = g.name := parseField_some hp
    rw [AppFields.get_set]
    by_cases hgf : f = g
    · subst hgf
      rw [if_pos rfl, if_pos hs]
    · rw [if_neg hgf, if_neg ?_]
      intro h
      exact hgf (FieldKey.name_inj (by rw [← hs, h]))

theorem AppFields.getS_name (a : AppFields) (f : FieldKey) : a.getS f.name = a.get f := by
  unfold AppFields.getS
  rw [parseField_name]

theorem objGet_cons {α : Type} (q : String × α) (t : List (String × α)) (k : String) :
    objGet (q :: t) k = if q.1 = k then some q.2 else objGet t k := by
  by_cases hq : q.1 = k <;> simp [objGet, List.find?_cons, hq]

theorem merge_fold_untouched (im : AppFields) (l : List (String × FieldResolution))
    (r0 : AppFields) (f : FieldKey) (hl : ∀ q ∈ l, q.1 ≠ f.name) :
    (l.foldl
      (fun result p =>
        if p.2 = .imported ∧ im.getS p.1 ≠ "" then result.setS p.1 (im.getS p.1)
        else result) r0).get f = r0.get f := by
  induction l generalizing r0 with
  | nil => rfl
  | cons q t ih =>
    simp only [List.foldl_cons]
    rw [ih _ (fun q hq => hl q (List.mem_cons_of_mem _ hq))]
    split_ifs with hc
    · rw [AppFields.get_setS, if_neg (hl q (List.mem_cons_self _ _))]
    · rfl

theorem merge_fold_get (im : AppFields) (l : List (String × FieldResolution))
    (r0 : AppFields) (f : FieldKey) (hnd : (l.map (fun p => p.1)).Nodup) :
    (l.foldl
      (fun result p =>
        if p.2 = .imported ∧ im.getS p.1 ≠ "" then result.setS p.1 (im.getS p.1)
        else result) r0).get f =
    if objGet l f.name = some .imported ∧ im.get f ≠ "" then im.get f else r0.get f := by
  induction l generalizing r0 with
  | nil => simp [objGet]
  | cons q t ih =>
    simp only [List.foldl_cons, objGet_cons]
    by_cases hq : q.1 = f.name
    · rw [if_pos hq]
      have hnotin : ∀ p ∈ t, p.1 ≠ f.name := by
        intro p hp h
        have hmem : q.1 ∈ t.map (fun p => p.1) := by
          rw [hq, ← h]
          exact List.mem_map_of_mem _ hp
        exact (List.nodup_cons.mp hnd).1 hmem
      rw [merge_fold_untouched im t _ f hnotin]
      have him : im.getS q.1 = im.get f := by rw [hq, AppFields.getS_name]
      have hcond : (q.2 = FieldResolution.imported ∧ im.getS q.1 ≠ "") ↔
          (some q.2 = some FieldResolution.imported ∧ im.get f ≠ "") := by
        rw [him]
        simp
      by_cases hc : q.2 = FieldResolution.imported ∧ im.getS q.1 ≠ ""
      · rw [if_pos hc, if_pos (hcond.mp hc), AppFields.get_setS, if_pos hq, him]
      · rw [if_neg hc, if_neg (fun h2 => hc (hcond.mpr h2))]
    · rw [if_neg hq, ih _ (List.nodup_cons.mp hnd).2]
      by_cases hc : objGet t f.name = some FieldResolution.imported ∧ im.get f ≠ ""
      · rw [if_pos hc, if_pos hc]
      · rw [if_neg hc, if_neg hc]
        by_cases hc2 : q.2 = FieldResolution.imported ∧ im.getS q.1 ≠ ""
        · rw [if_pos hc2, AppFields.get_setS, if_neg hq]
        · rw [if_neg hc2]

theorem foldl_objUpd_const_inv {α β : Type} (v : α) (key : β → String) (l : List β)
    (acc : List (String × α)) (hacc : ∀ p ∈ acc, p.2 = v) :
    ∀ p ∈ l.foldl (fun a b => objUpd a (key b) v) acc, p.2 = v := by
  induction l generalizing acc with
  | nil => exact hacc
  | cons b t ih =>
    apply ih
    intro p hp
    rcases mem_objUpd hp with h | h
    · exact hacc _ h
    · rw [h]

theorem initRemoteResolutions_entries (dups : List DupEntry) :
    ∀ p ∈ initRemoteResolutions dups, p.2 =
      { action := RAction.keep,
        fieldResolutions :=
          allFields.map (fun f => (f.name, FieldResolution.existing)) } := by
  unfold initRemoteResolutions
  have h : ∀ (ds : List DupEntry) (acc : List (String × RemoteResolution)),
      (∀ p ∈ acc, p.2 =
        { action := RAction.keep,
          fieldResolutions :=
            allFields.map (fun f => (f.name, FieldResolution.existing)) }) →
      ∀ p ∈ ds.foldl
        (fun acc dup =>
          dup.duplicates.foldl
            (fun acc2 duplicate =>
              objUpd acc2 duplicate.id
                { action := .keep
                  fieldResolutions := allFields.map (fun f => (f.name, .existing)) })
            acc)
        acc, p.2 =
        { action := RAction.keep,
          fieldResolutions :=
            allFields.map (fun f => (f.name, FieldResolution.existing)) } := by
    intro ds
    induction ds with
    | nil => intro acc hacc; exact hacc
    | cons d t ih =>
      intro acc hacc
      exact ih _ (foldl_objUpd_const_inv _ (fun r => r.id) d.duplicates acc hacc)
  exact h dups [] (by intro p hp; cases hp)

/-- C6. Under a merge resolution each canonical field resolves independently:
a field whose resolution entry is imported takes the imported value when that
value is non-empty and the existing value otherwise, and every other field
keeps the existing value; and the resolutions created on discovery give every
matched record the keep action with every field resolved to existing. -/
theorem remote_merge_fieldwise (ex im : AppFields) (res : RemoteResolution)
    (hact : res.action = .merge)
    (hnd : (res.fieldResolutions.map (fun p => p.1)).Nodup) :
    (∀ f : FieldKey,
      (calculateFinalData (some ex) (some im) res).map (fun r => r.get f) =
        some (if objGet res.fieldResolutions f.name = some .imported ∧ im.get f ≠ ""
              then im.get f else ex.get f))
    ∧ ∀ dups : List DupEntry, ∀ p ∈ initRemoteResolutions dups,
        p.2.action = .keep ∧
        ∀ f : FieldKey, objGet p.2.fieldResolutions f.name = some .existing := by
  constructor
  · intro f
    simp only [calculateFinalData, hact, Option.map_some']
    rw [merge_fold_get im res.fieldResolutions ex f hnd]
  · intro dups p hp
    have h2 := initRemoteResolutions_entries dups p hp
    constructor
    · rw [h2]
    · intro f
      rw [h2]
      cases f <;> rfl

theorem remote_merge_fieldwise_witness :
    (∀ f : FieldKey,
      (calculateFinalData (some exW) (some imW) resW).map (fun r => r.get f) =
        some (if objGet resW.fieldResolutions f.name = some .imported ∧ imW.get f ≠ ""
              then imW.get f else exW.get f))
    ∧ ∀ dups : List DupEntry, ∀ p ∈ initRemoteResolutions dups,
        p.2.action = .keep ∧
        ∀ f : FieldKey, objGet p.2.fieldResolutions f.name = some .existing :=
  remote_merge_fieldwise exW imW resW rfl (by decide)

theorem isPrefixOfChars_append (l m : List Char) : isPrefixOfChars l (l ++ m) = true := by
  induction l with
  | nil => rfl
  | cons c t ih => simp [isPrefixOfChars, ih]

theorem append_https_ne_empty (s : String) : ("https://" ++ s) ≠ "" := by
  intro h
  have hd := congrArg String.data h
  rw [String.data_append] at hd
  simp at hd

theorem hasScheme_append_https (s : String) : hasScheme ("https://" ++ s) = true := by
  unfold hasScheme
  have hl : (lowerStr ("https://" ++ s)).data = "https://".data ++ (lowerStr s).data := by
    simp [lowerStr, String.data_append]
  have h2 : startsWithStr (lowerStr ("https://" ++ s)) "https://" = true := by
    unfold startsWithStr
    rw [hl]
    exact isPrefixOfChars_append _ _
  rw [h2, Bool.or_true]

/-- C7. extractRootDomain on the three specified vectors, together with the
normalization structure: a string with no scheme behaves exactly as the same
string with https:// prefixed, and when both the URL parse and the regex
fallback fail on a scheme-bearing input the function returns its input
unchanged. -/
theorem extract_root_domain_spec :
    extractRootDomain "https://www.Example.com/path" = "example.com"
    ∧ extractRootDomain "example.com" = "example.com"
    ∧ extractRootDomain "" = ""
    ∧ (∀ s : String, hasScheme s = false → s ≠ "" →
        extractRootDomain s = extractRootDomain ("https://" ++ s))
    ∧ (∀ s : String, hasScheme s = true → urlHostname s = none → regexFallback s = none →
        extractRootDomain s = s) := by
  refine ⟨by decide, by decide, by decide, ?_, ?_⟩
  · intro s hs hne
    unfold extractRootDomain
    rw [if_neg hne, if_neg (append_https_ne_empty s)]
    simp only [hs, hasScheme_append_https, Bool.false_eq_true, if_false, if_true]
  · intro s hs hnone hfb
    unfold extractRootDomain
    by_cases hne : s = ""
    · rw [if_pos hne, hne]
    · rw [if_neg hne]
      simp only [hs, if_true, hnone, hfb]

theorem extract_root_domain_spec_witness :
    extractRootDomain "example.com" = extractRootDomain ("https://" ++ "example.com") :=
  extract_root_domain_spec.2.2.2.1 "example.com" (by decide) (by decide)

theorem splitChar_ne_nil (sep : Char) (l : List Char) : splitChar sep l ≠ [] := by
  cases l with
  | nil => simp [splitChar]
  | cons c rest =>
    unfold splitChar
    cases splitChar sep rest with
    | nil => simp
    | cons cur done => by_cases h : c = sep <;> simp [h]

theorem splitChar_length (sep : Char) (l : List Char) :
    (splitChar sep l).length = l.count sep + 1 := by
  induction l with
  | nil => simp [splitChar]
  | cons c rest ih =>
    cases hs : splitChar sep rest with
    | nil => exact absurd hs (splitChar_ne_nil sep rest)
    | cons cur done =>
      rw [hs] at ih
      simp only [splitChar, hs]
      by_cases h : c = sep
      · subst h
        rw [if_pos rfl, List.count_cons_self]
        simp only [List.length_cons] at ih ⊢
        omega
      · rw [if_neg h, List.count_cons_of_ne (fun h2 => h h2.symm)]
        simp only [List.length_cons] at ih ⊢
        omega

theorem splitChar_two_le (sep : Char) (l : List Char) (hm : sep ∈ l) :
    2 ≤ (splitChar sep l).length := by
  rw [splitChar_length]
  have := List.count_pos_iff.mpr hm
  omega

theorem mem_of_getLast?_eq {α : Type} {l : List α} {a : α} (h : l.getLast? = some a) :
    a ∈ l := by
  have h2 : a ∈ l.getLast? := Option.mem_def.mpr h
  rcases List.mem_getLast?_eq_getLast h2 with ⟨hne, heq⟩
  rw [heq]
  exact List.getLast_mem hne

theorem splitChar_cons_eq (sep c : Char) (rest : List Char) :
    splitChar sep (c :: rest) =
      match splitChar sep rest with
      | [] => [[]]
      | cur :: done => if c = sep then [] :: cur :: done else (c :: cur) :: done := rfl

theorem splitChar_getLast_of_sep (sep : Char) (l : List Char)
    (h : l.getLast? = some sep) : (splitChar sep l).getLast? = some [] := by
  induction l with
  | nil => cases h
  | cons c rest ih =>
    by_cases hrest : rest = []
    · subst hrest
      simp only [List.getLast?_singleton, Option.some.injEq] at h
      subst h
      simp [splitChar]
    · have h2 : rest.getLast? = some sep := by
        cases rest with
        | nil => exact absurd rfl hrest
        | cons a b =>
          rw [List.getLast?_cons_cons] at h
          exact h
      have ihh := ih h2
      have hlen := splitChar_two_le sep rest (mem_of_getLast?_eq h2)
      cases hs : splitChar sep rest with
      | nil => exact absurd hs (splitChar_ne_nil sep rest)
      | cons cur done =>
        rw [hs] at ihh hlen
        have hdone : done ≠ [] := by
          intro hd
          rw [hd] at hlen
          simp at hlen
        rw [splitChar_cons_eq, hs]
        show (if c = sep then [] :: cur :: done else (c :: cur) :: done).getLast? = some []
        by_cases hc : c = sep
        · rw [if_pos hc, List.getLast?_cons_cons]
          exact ihh
        · rw [if_neg hc]
          cases done with
          | nil => exact absurd rfl hdone
          | cons d t =>
            rw [List.getLast?_cons_cons]
            rw [List.getLast?_cons_cons] at ihh
            exact ihh

theorem getLast?_map_eq {α β : Type} (f : α → β) (l : List α) :
    (l.map f).getLast? = l.getLast?.map f := by
  induction l with
  | nil => rfl
  | cons a t ih =>
    cases t with
    | nil => rfl
    | cons b t2 =>
      simp only [List.map_cons, List.getLast?_cons_cons]
      simpa only [List.map_cons] using ih

theorem tail_getLast?_eq {α : Type} (l : List α) (h : 2 ≤ l.length) :
    l.tail.getLast? = l.getLast? := by
  cases l with
  | nil => simp at h
  | cons a t =>
    cases t with
    | nil => simp at h
    | cons b t2 => simp only [List.tail_cons, List.getLast?_cons_cons]

theorem foldl_objUpd_pred_inv {α β : Type} (P : α → Prop) (key : β → String) (val : β → α)
    (l : List β) (acc : List (String × α)) (hacc : ∀ p ∈ acc, P p.2) (hv : ∀ b, P (val b)) :
    ∀ p ∈ l.foldl (fun a b => objUpd a (key b) (val b)) acc, P p.2 := by
  induction l generalizing acc with
  | nil => exact hacc
  | cons b t ih =>
    apply ih
    intro p hp
    rcases mem_objUpd hp with h2 | h2
    · exact hacc _ h2
    · rw [h2]
      exact hv b

theorem rowOfLine_empty_values (headers : List String) :
    ∀ p ∈ rowOfLine headers "", p.2 = none ∨ p.2 = some "" := by
  unfold rowOfLine
  exact foldl_objUpd_pred_inv (fun v => v = none ∨ v = some "")
    (fun hi => hi.2)
    (fun hi => ((jsSplit ',' "").get? hi.1).map (fun v => jsTrim v))
    headers.enum []
    (by intro p hp; cases hp)
    (by
      rintro ⟨i, hname⟩
      cases i with
      | zero => right; rfl
      | succ n => left; rfl)

theorem fieldVal_empty (mappings : Mappings) (row : RawRow)
    (hrow : ∀ p ∈ row, p.2 = none ∨ p.2 = some "") (f : FieldKey) :
    fieldVal mappings row f = "" := by
  unfold fieldVal
  cases objGet mappings f.name with
  | none => rfl
  | some hcol =>
    show (rowGet row hcol).getD "" = ""
    unfold rowGet
    cases hfind : objGet row hcol with
    | none => rfl
    | some v =>
      have hex : ∃ p ∈ row, p.2 = v := by
        unfold objGet at hfind
        cases hf2 : row.find? (fun p => p.1 = hcol) with
        | none => rw [hf2] at hfind; cases hfind
        | some p =>
          rw [hf2] at hfind
          exact ⟨p, List.mem_of_find?_eq_some hf2, by injection hfind⟩
      have hv : v = none ∨ v = some "" := by
        rcases hex with ⟨p, hp, hpv⟩
        rw [← hpv]
        exact hrow p hp
      rcases hv with h2 | h2 <;> rw [h2] <;> rfl

/-- C10. When the file text ends with a newline, the split produces a final
empty line, so parseCSV yields one row per newline character including a
trailing row whose cells are all undefined or empty; that row formats to an
empty appName, which the validation schema rejects. -/
theorem trailing_newline_yields_empty_row (content : String)
    (h : content.data.getLast? = some '\n') :
    (parseCSVData content).length = content.data.count '\n'
    ∧ (parseCSVData content).getLast? = some (rowOfLine (parseHeaders content) "")
    ∧ ∀ row, (parseCSVData content).getLast? = some row →
        (∀ p ∈ row, p.2 = none ∨ p.2 = some "")
        ∧ ∀ mappings : Mappings,
            (formatRow mappings row).appName = ""
            ∧ appSchemaValid (formatRow mappings row) = false := by
  have hmem : '\n' ∈ content.data := mem_of_getLast?_eq h
  have hlen2 : 2 ≤ (splitChar '\n' content.data).length := splitChar_two_le _ _ hmem
  have hlines_len : (parseCSVLines content).length = content.data.count '\n' + 1 := by
    unfold parseCSVLines jsSplit
    rw [List.length_map, splitChar_length]
  have hlines_last : (parseCSVLines content).getLast? = some "" := by
    unfold parseCSVLines jsSplit
    rw [getLast?_map_eq, splitChar_getLast_of_sep _ _ h]
    rfl
  have hlines2 : 2 ≤ (parseCSVLines content).length := by
    unfold parseCSVLines jsSplit
    rw [List.length_map]
    exact hlen2
  have hlast : (parseCSVData content).getLast? =
      some (rowOfLine (parseHeaders content) "") := by
    unfold parseCSVData
    rw [getLast?_map_eq, tail_getLast?_eq _ hlines2, hlines_last]
    rfl
  refine ⟨?_, hlast, ?_⟩
  · unfold parseCSVData
    rw [List.length_map, List.length_tail, hlines_len]
    omega
  · intro row hrow
    have hreq : row = rowOfLine (parseHeaders content) "" := by
      rw [hrow] at hlast
      exact Option.some.inj hlast.symm |>.symm
    subst hreq
    refine ⟨rowOfLine_empty_values _, ?_⟩
    intro mappings
    have happ : (formatRow mappings (rowOfLine (parseHeaders content) "")).appName = "" :=
      fieldVal_empty mappings _ (rowOfLine_empty_values _) .appName
    refine ⟨happ, ?_⟩
    unfold appSchemaValid
    rw [happ]
    rfl

theorem trailing_newline_yields_empty_row_witness :
    (parseCSVData contentW).length = contentW.data.count '\n'
    ∧ (parseCSVData contentW).getLast? = some (rowOfLine (parseHeaders contentW) "")
    ∧ ∀ row, (parseCSVData contentW).getLast? = some row →
        (∀ p ∈ row, p.2 = none ∨ p.2 = some "")
        ∧ ∀ mappings : Mappings,
            (formatRow mappings row).appName = ""
            ∧ appSchemaValid (formatRow mappings row) = false :=
  trailing_newline_yields_empty_row contentW (by decide)

/-- C5 counterexample. Re-mapping the Other column onto the appName slot
overwrites that slot's entry, leaving the App Name header with no mapping
entry at all: a header can end up mapped to zero slots. -/
theorem remap_strips_header :
    headerCount (applyOps (initialMappings ["App Name", "Other"])
      [("Other", "appName")]) "App Name" = 0 := by
  decide

theorem mem_keys_objUpd {α : Type} {m : List (String × α)} {k : String} {v : α}
    {x : String} (hx : x ∈ (objUpd m k v).map (fun p => p.1)) :
    x = k ∨ x ∈ m.map (fun p => p.1) := by
  rcases List.mem_map.mp hx with ⟨p, hp, hpx⟩
  rcases mem_objUpd hp with h | h
  · right
    exact hpx ▸ List.mem_map_of_mem _ h
  · left
    rw [← hpx, h]

theorem mem_vals_objUpd {α : Type} {m : List (String × α)} {k : String} {v : α}
    {x : α} (hx : x ∈ (objUpd m k v).map (fun p => p.2)) :
    x = v ∨ x ∈ m.map (fun p => p.2) := by
  rcases List.mem_map.mp hx with ⟨p, hp, hpx⟩
  rcases mem_objUpd hp with h | h
  · right
    exact hpx ▸ List.mem_map_of_mem _ h
  · left
    rw [← hpx, h]

theorem vals_nodup_objUpd {α : Type} (m : List (String × α)) (k : String) (v : α)
    (hm : (m.map (fun p => p.2)).Nodup) (hv : ∀ p ∈ m, p.2 ≠ v) :
    ((objUpd m k v).map (fun p => p.2)).Nodup := by
  induction m with
  | nil => simp [objUpd]
  | cons q t ih =>
    rw [List.map_cons, List.nodup_cons] at hm
    by_cases hq : q.1 = k
    · simp only [objUpd, if_pos hq, List.map_cons, List.nodup_cons]
      refine ⟨?_, hm.2⟩
      intro hmem
      rcases List.mem_map.mp hmem with ⟨p, hp, hpx⟩
      exact hv p (List.mem_cons_of_mem _ hp) hpx
    · simp only [objUpd, if_neg hq, List.map_cons, List.nodup_cons]
      refine ⟨?_, ih hm.2 (fun p hp => hv p (List.mem_cons_of_mem _ hp))⟩
      intro hmem
      rcases mem_vals_objUpd hmem with h | h
      · exact hv q (List.mem_cons_self _ _) h
      · exact hm.1 h

theorem mappingWF_objUpd (m : Mappings) (h : String) (hm : MappingWF m) :
    MappingWF (objUpd m (slotKey h) h) := by
  induction m with
  | nil =>
    refine ⟨by simp [objUpd], ?_⟩
    intro p hp
    simp only [objUpd, List.mem_singleton] at hp
    rw [hp]
  | cons q t ih =>
    obtain ⟨hnd, hslot⟩ := hm
    rw [List.map_cons, List.nodup_cons] at hnd
    by_cases hq : q.1 = slotKey h
    · simp only [objUpd, if_pos hq]
      refine ⟨?_, ?_⟩
      · rw [List.map_cons, List.nodup_cons]
        exact ⟨hq ▸ hnd.1, hnd.2⟩
      · intro p hp
        rcases List.mem_cons.mp hp with h2 | h2
        · rw [h2]
        · exact hslot p (List.mem_cons_of_mem _ h2)
    · simp only [objUpd, if_neg hq]
      have iht := ih ⟨hnd.2, fun p hp => hslot p (List.mem_cons_of_mem _ hp)⟩
      refine ⟨?_, ?_⟩
      · rw [List.map_cons, List.nodup_cons]
        refine ⟨?_, iht.1⟩
        intro hmem
        rcases mem_keys_objUpd hmem with h2 | h2
        · exact hq h2
        · exact hnd.1 h2
      · intro p hp
        rcases List.mem_cons.mp hp with h2 | h2
        · rw [h2]
          exact hslot q (List.mem_cons_self _ _)
        · exact iht.2 p h2

theorem mappingWF_initialMappings (headers : List String) :
    MappingWF (initialMappings headers) := by
  have hgen : ∀ (hs : List String) (acc : Mappings), MappingWF acc →
      MappingWF (hs.foldl (fun m h => objUpd m (slotKey h) h) acc) := by
    intro hs
    induction hs with
    | nil => exact fun acc hacc => hacc
    | cons x t ih => exact fun acc hacc => ih _ (mappingWF_objUpd acc x hacc)
  exact hgen headers [] ⟨List.nodup_nil, by intro p hp; cases hp⟩

theorem vals_nodup_of_mappingWF (m : Mappings) (hm : MappingWF m) :
    (m.map (fun p => p.2)).Nodup := by
  induction m with
  | nil => simp
  | cons q t ih =>
    obtain ⟨hnd, hslot⟩ := hm
    rw [List.map_cons, List.nodup_cons] at hnd ⊢
    refine ⟨?_, ih ⟨hnd.2, fun p hp => hslot p (List.mem_cons_of_mem _ hp)⟩⟩
    intro hmem
    rcases List.mem_map.mp hmem with ⟨p, hp, hpx⟩
    have h1 : p.1 = slotKey p.2 := hslot p (List.mem_cons_of_mem _ hp)
    have h2 : q.1 = slotKey q.2 := hslot q (List.mem_cons_self _ _)
    have : q.1 = p.1 := by rw [h1, h2, hpx]
    exact hnd.1 (this ▸ List.mem_map_of_mem _ hp)

theorem vals_nodup_handleMappingChange (m : Mappings) (header value : String)
    (hm : (m.map (fun p => p.2)).Nodup) :
    ((handleMappingChange m header value).map (fun p => p.2)).Nodup := by
  unfold handleMappingChange
  apply vals_nodup_objUpd
  · exact List.Nodup.sublist (List.Sublist.map _ (List.filter_sublist m)) hm
  · intro p hp
    have := (List.mem_filter.mp hp).2
    simpa using this

theorem vals_nodup_applyOps (m : Mappings) (ops : List (String × String))
    (hm : (m.map (fun p => p.2)).Nodup) :
    ((applyOps m ops).map (fun p => p.2)).Nodup := by
  induction ops generalizing m with
  | nil => exact hm
  | cons op t ih =>
    exact ih _ (vals_nodup_handleMappingChange m op.1 op.2 hm)

theorem headerCount_eq_count (m : Mappings) (h : String) :
    headerCount m h = (m.map (fun p => p.2)).count h := by
  unfold headerCount
  rw [List.count, List.countP_map, ← List.countP_eq_length_filter]
  rfl

theorem headerCount_le_one_of_vals_nodup (m : Mappings) (h : String)
    (hm : (m.map (fun p => p.2)).Nodup) : headerCount m h ≤ 1 := by
  rw [headerCount_eq_count]
  exact List.nodup_iff_count_le_one.mp hm h

theorem mem_foldl_objUpd_preserve (hs : List String) (acc : Mappings)
    (p : String × String) (hp : p ∈ acc) (hne : ∀ x ∈ hs, slotKey x ≠ p.1) :
    p ∈ hs.foldl (fun m x => objUpd m (slotKey x) x) acc := by
  induction hs generalizing acc with
  | nil => exact hp
  | cons x t ih =>
    apply ih
    · exact mem_objUpd_of_mem hp _ _ (fun h2 => hne x (List.mem_cons_self _ _) h2.symm)
    · exact fun y hy => hne y (List.mem_cons_of_mem _ hy)

theorem mem_initialMappings_of_nodup (headers : List String) (h : String)
    (hmem : h ∈ headers) (hnd : (headers.map slotKey).Nodup) :
    (slotKey h, h) ∈ initialMappings headers := by
  have hgen : ∀ (hs : List String) (acc : Mappings), h ∈ hs →
      (hs.map slotKey).Nodup →
      (slotKey h, h) ∈ hs.foldl (fun m x => objUpd m (slotKey x) x) acc := by
    intro hs
    induction hs with
    | nil => intro acc hmem2 _; cases hmem2
    | cons x t ih =>
      intro acc hmem2 hnd2
      rw [List.map_cons, List.nodup_cons] at hnd2
      rcases List.mem_cons.mp hmem2 with h2 | h2
      · subst h2
        rw [List.foldl_cons]
        apply mem_foldl_objUpd_preserve
        · exact objUpd_self_mem acc (slotKey h) h
        · intro y hy h3
          apply hnd2.1
          have hmem3 : slotKey y ∈ t.map slotKey := List.mem_map_of_mem _ hy
          rw [h3] at hmem3
          exact hmem3
      · exact ih _ h2 hnd2.2
  exact hgen headers [] hmem hnd

/-- C5 amended. Through the automatic mapping and any sequence of explicit
re-mappings, every header occupies at most one mapping slot; and right after
the automatic mapping every header occupies exactly one slot provided no two
headers compete for the same slot key. A re-mapping onto an occupied slot can
leave the displaced header with zero slots, so exactly-one does not survive
arbitrary re-mapping sequences. -/
theorem mapping_at_most_one_slot (headers : List String) (ops : List (String × String)) :
    (∀ h : String, headerCount (applyOps (initialMappings headers) ops) h ≤ 1)
    ∧ ((headers.map slotKey).Nodup →
        ∀ h ∈ headers, headerCount (initialMappings headers) h = 1) := by
  constructor
  · intro h
    apply headerCount_le_one_of_vals_nodup
    apply vals_nodup_applyOps
    exact vals_nodup_of_mappingWF _ (mappingWF_initialMappings headers)
  · intro hnd h hmem
    have hle : headerCount (initialMappings headers) h ≤ 1 :=
      headerCount_le_one_of_vals_nodup _ _
        (vals_nodup_of_mappingWF _ (mappingWF_initialMappings headers))
    have hge : 1 ≤ headerCount (initialMappings headers) h := by
      rw [headerCount_eq_count]
      apply List.count_pos_iff.mpr
      exact List.mem_map.mpr ⟨(slotKey h, h), mem_initialMappings_of_nodup headers h hmem hnd, rfl⟩
    omega

theorem mapping_at_most_one_slot_witness :
    headerCount (applyOps (initialMappings ["App Name", "Other"])
      [("Other", "appName")]) "App Name" ≤ 1
    ∧ headerCount (initialMappings ["App Name", "Other"]) "App Name" = 1 :=
  ⟨(mapping_at_most_one_slot ["App Name", "Other"] [("Other", "appName")]).1 "App Name",
   (mapping_at_most_one_slot ["App Name", "Other"] []).2 (by decide) "App Name" (by decide)⟩

theorem findRecs_cons (g : String × List AppData) (rest : List (String × List AppData))
    (k : String) :
    findRecs (g :: rest) k = if g.1 = k then g.2 else findRecs rest k := by
  by_cases h : g.1 = k <;> simp [findRecs, List.find?_cons, h]

theorem findRecs_addToGroups (groups : List (String × List AppData)) (k : String)
    (r : AppData) (k' : String) :
    findRecs (addToGroups groups k r) k' =
      if k' = k then findRecs groups k' ++ [r] else findRecs groups k' := by
  induction groups with
  | nil =>
    by_cases h : k' = k
    · subst h
      simp [addToGroups, findRecs, List.find?_cons]
    · rw [if_neg h]
      have h2 : k ≠ k' := fun h3 => h h3.symm
      simp [addToGroups, findRecs, List.find?_cons, h2]
  | cons g rest ih =>
    by_cases hg : g.1 = k
    · simp only [addToGroups, if_pos hg]
      by_cases h : k' = k
      · subst h
        rw [findRecs_cons, findRecs_cons]
        simp [hg]
      · rw [findRecs_cons, findRecs_cons]
        simp [hg, h, Ne.symm h]
    · simp only [addToGroups, if_neg hg]
      by_cases hgk : g.1 = k'
      · have h : k' ≠ k := fun h3 => hg (hgk.trans h3)
        rw [findRecs_cons, findRecs_cons]
        simp [hgk, h]
      · rw [findRecs_cons, findRecs_cons]
        simpa [hgk] using ih

theorem mem_keys_addToGroups {groups : List (String × List AppData)} {k : String}
    {r : AppData} {x : String}
    (hx : x ∈ (addToGroups groups k r).map (fun g => g.1)) :
    x = k ∨ x ∈ groups.map (fun g => g.1) := by
  induction groups with
  | nil => simpa [addToGroups] using hx
  | cons g rest ih =>
    by_cases hg : g.1 = k
    · simp only [addToGroups, if_pos hg, List.map_cons, List.mem_cons] at hx
      rcases hx with h | h
      · exact Or.inl h
      · exact Or.inr (List.mem_cons_of_mem _ h)
    · simp only [addToGroups, if_neg hg, List.map_cons, List.mem_cons] at hx
      rcases hx with h | h
      · exact Or.inr (h ▸ List.mem_cons_self _ _)
      · rcases ih h with h2 | h2
        · exact Or.inl h2
        · exact Or.inr (List.mem_cons_of_mem _ h2)

theorem keys_nodup_addToGroups (groups : List (String × List AppData)) (k : String)
    (r : AppData) (hnd : (groups.map (fun g => g.1)).Nodup) :
    ((addToGroups groups k r).map (fun g => g.1)).Nodup := by
  induction groups with
  | nil => simp [addToGroups]
  | cons g rest ih =>
    rw [List.map_cons, List.nodup_cons] at hnd
    by_cases hg : g.1 = k
    · simp only [addToGroups, if_pos hg, List.map_cons, List.nodup_cons]
      exact ⟨hg ▸ hnd.1, hnd.2⟩
    · simp only [addToGroups, if_neg hg, List.map_cons, List.nodup_cons]
      refine ⟨?_, ih hnd.2⟩
      intro hmem
      rcases mem_keys_addToGroups hmem with h | h
      · exact hg h
      · exact hnd.1 h

theorem findRecs_groupFold (selected : List FieldKey) (rows : List AppData)
    (acc : List (String × List AppData)) (k : String) :
    findRecs (rows.foldl
      (fun acc r => addToGroups acc (compositeKey selected r.toAppFields) r) acc) k =
      findRecs acc k ++
        rows.filter (fun r => compositeKey selected r.toAppFields == k) := by
  induction rows generalizing acc with
  | nil => simp
  | cons r t ih =>
    rw [List.foldl_cons, ih, findRecs_addToGroups, List.filter_cons]
    by_cases h : compositeKey selected r.toAppFields = k
    · rw [if_pos h.symm, if_pos (beq_iff_eq.mpr h)]
      simp
    · rw [if_neg (fun h2 => h h2.symm), if_neg (by simpa using h)]

theorem keys_nodup_groupFold (selected : List FieldKey) (rows : List AppData)
    (acc : List (String × List AppData))
    (hacc : (acc.map (fun g => g.1)).Nodup) :
    ((rows.foldl
      (fun acc r => addToGroups acc (compositeKey selected r.toAppFields) r) acc).map
        (fun g => g.1)).Nodup := by
  induction rows generalizing acc with
  | nil => exact hacc
  | cons r t ih => exact ih _ (keys_nodup_addToGroups _ _ _ hacc)

theorem find?_eq_of_mem_nodup {groups : List (String × List AppData)}
    {g : String × List AppData} (hnd : (groups.map (fun x => x.1)).Nodup)
    (hg : g ∈ groups) : groups.find? (fun x => x.1 = g.1) = some g := by
  induction groups with
  | nil => cases hg
  | cons q rest ih =>
    rw [List.map_cons, List.nodup_cons] at hnd
    rcases List.mem_cons.mp hg with h | h
    · subst h
      simp [List.find?_cons]
    · have hq : q.1 ≠ g.1 := by
        intro h2
        exact hnd.1 (h2 ▸ List.mem_map_of_mem _ h)
      simp only [List.find?_cons, hq, decide_False]
      exact ih hnd.2 h

theorem findRecs_eq_of_mem {groups : List (String × List AppData)}
    {g : String × List AppData} (hnd : (groups.map (fun x => x.1)).Nodup)
    (hg : g ∈ groups) : findRecs groups g.1 = g.2 := by
  unfold findRecs
  rw [find?_eq_of_mem_nodup hnd hg]

theorem findRecs_duplicateGroups (selected : List FieldKey) (mappings : Mappings)
    (data : List RawRow) (k : String) :
    findRecs (duplicateGroups selected mappings data) k =
      (snapshots mappings data).filter
        (fun r => compositeKey selected r.toAppFields == k) := by
  unfold duplicateGroups
  rw [findRecs_groupFold]
  rfl

theorem keys_nodup_duplicateGroups (selected : List FieldKey) (mappings : Mappings)
    (data : List RawRow) :
    ((duplicateGroups selected mappings data).map (fun g => g.1)).Nodup :=
  keys_nodup_groupFold selected _ [] List.nodup_nil

theorem compositeKey_congr (selected : List FieldKey) (a b : AppFields)
    (h : ∀ f ∈ selected, a.get f = b.get f) :
    compositeKey selected a = compositeKey selected b := by
  unfold compositeKey
  congr 1
  exact List.map_congr_left (fun f hf => by rw [h f hf])

/-- C2 amended. With a non-empty selected field set, two distinct row
snapshots land in one emitted duplicate group exactly when their composite
keys are equal; equality of all selected-field values still implies sharing a
group (keys are a function of those values), though not conversely; and every
emitted group has at least two members. -/
theorem csv_duplicate_grouping_amended (selected : List FieldKey) (mappings : Mappings)
    (data : List RawRow) (r1 r2 : AppData)
    (hsel : selected ≠ [])
    (h1 : r1 ∈ snapshots mappings data) (h2 : r2 ∈ snapshots mappings data)
    (hne : r1.originalIndex ≠ r2.originalIndex) :
    ((∃ g ∈ checkForCsvDuplicates selected mappings data,
        r1 ∈ g.records ∧ r2 ∈ g.records) ↔
      compositeKey selected r1.toAppFields = compositeKey selected r2.toAppFields)
    ∧ ((∀ f ∈ selected, r1.toAppFields.get f = r2.toAppFields.get f) →
        ∃ g ∈ checkForCsvDuplicates selected mappings data,
          r1 ∈ g.records ∧ r2 ∈ g.records)
    ∧ (∀ g ∈ checkForCsvDuplicates selected mappings data, 2 ≤ g.records.length) := by
  have hmemout : ∀ g : DupGroup, g ∈ checkForCsvDuplicates selected mappings data ↔
      ∃ g0 ∈ duplicateGroups selected mappings data, 1 < g0.2.length ∧
        g = ⟨g0.1, g0.2, selected.map FieldKey.name⟩ := by
    intro g
    unfold checkForCsvDuplicates
    rw [if_neg hsel]
    constructor
    · intro hg
      rcases List.mem_map.mp hg with ⟨g0, hg0, hmk⟩
      have hf := List.mem_filter.mp hg0
      exact ⟨g0, hf.1, by simpa using hf.2, hmk.symm⟩
    · rintro ⟨g0, hg0, hlen, rfl⟩
      exact List.mem_map.mpr ⟨g0, List.mem_filter.mpr ⟨hg0, by simpa using hlen⟩, rfl⟩
  have hrecs : ∀ g0 ∈ duplicateGroups selected mappings data,
      g0.2 = (snapshots mappings data).filter
        (fun r => compositeKey selected r.toAppFields == g0.1) := by
    intro g0 hg0
    rw [← findRecs_duplicateGroups]
    exact (findRecs_eq_of_mem (keys_nodup_duplicateGroups selected mappings data) hg0).symm
  have hiff : (∃ g ∈ checkForCsvDuplicates selected mappings data,
      r1 ∈ g.records ∧ r2 ∈ g.records) ↔
      compositeKey selected r1.toAppFields = compositeKey selected r2.toAppFields := by
    constructor
    · rintro ⟨g, hg, hr1, hr2⟩
      rcases (hmemout g).mp hg with ⟨g0, hg0, _, rfl⟩
      rw [hrecs g0 hg0] at hr1 hr2
      have k1 := (List.mem_filter.mp hr1).2
      have k2 := (List.mem_filter.mp hr2).2
      rw [beq_iff_eq] at k1 k2
      rw [k1, k2]
    · intro hk
      have hbeq1 : (compositeKey selected r1.toAppFields ==
          compositeKey selected r1.toAppFields) = true := beq_self_eq_true _
      have hbeq2 : (compositeKey selected r2.toAppFields ==
          compositeKey selected r1.toAppFields) = true := beq_iff_eq.mpr hk.symm
      have hr1f : r1 ∈ findRecs (duplicateGroups selected mappings data)
          (compositeKey selected r1.toAppFields) := by
        rw [findRecs_duplicateGroups]
        exact List.mem_filter.mpr ⟨h1, hbeq1⟩
      have hr2f : r2 ∈ findRecs (duplicateGroups selected mappings data)
          (compositeKey selected r1.toAppFields) := by
        rw [findRecs_duplicateGroups]
        exact List.mem_filter.mpr ⟨h2, hbeq2⟩
      unfold findRecs at hr1f hr2f
      cases hfind : (duplicateGroups selected mappings data).find?
          (fun g => g.1 = compositeKey selected r1.toAppFields) with
      | none =>
        rw [hfind] at hr1f
        cases hr1f
      | some g0 =>
        rw [hfind] at hr1f hr2f
        have hg0mem : g0 ∈ duplicateGroups selected mappings data :=
          List.mem_of_find?_eq_some hfind
        have hrne : r1 ≠ r2 := fun he => hne (congrArg AppData.originalIndex he)
        have hlen : 1 < g0.2.length := two_mem_one_lt_length hr1f hr2f hrne
        refine ⟨⟨g0.1, g0.2, selected.map FieldKey.name⟩, ?_, hr1f, hr2f⟩
        exact (hmemout _).mpr ⟨g0, hg0mem, hlen, rfl⟩
  refine ⟨hiff, ?_, ?_⟩
  · intro hfw
    exact hiff.mpr (compositeKey_congr selected _ _ hfw)
  · intro g hg
    rcases (hmemout g).mp hg with ⟨g0, _, hlen, rfl⟩
    simpa using hlen

theorem csv_duplicate_grouping_amended_witness :
    ((∃ g ∈ checkForCsvDuplicates [FieldKey.appName] mapA [rowA0, rowA1],
        toAppData mapA rowA0 0 ∈ g.records ∧ toAppData mapA rowA1 1 ∈ g.records) ↔
      compositeKey [FieldKey.appName] (toAppData mapA rowA0 0).toAppFields =
        compositeKey [FieldKey.appName] (toAppData mapA rowA1 1).toAppFields)
    ∧ ((∀ f ∈ [FieldKey.appName],
          (toAppData mapA rowA0 0).toAppFields.get f =
            (toAppData mapA rowA1 1).toAppFields.get f) →
        ∃ g ∈ checkForCsvDuplicates [FieldKey.appName] mapA [rowA0, rowA1],
          toAppData mapA rowA0 0 ∈ g.records ∧ toAppData mapA rowA1 1 ∈ g.records)
    ∧ (∀ g ∈ checkForCsvDuplicates [FieldKey.appName] mapA [rowA0, rowA1],
        2 ≤ g.records.length) :=
  csv_duplicate_grouping_amended [FieldKey.appName] mapA [rowA0, rowA1]
    (toAppData mapA rowA0 0) (toAppData mapA rowA1 1)
    (by decide) (by decide) (by decide) (by decide)
